import Mathlib

/-!
Verification of the process-local TTL+LRU instance caches and the rerank
post-processing pipeline of this repository.

The repository implements three structurally identical caches:
  * `Vector._embedding_model_cache` and `Vector._vector_processor_cache`
    (api/core/rag/datasource/vdb/vector_factory.py), ttl 1800 s, max size 100;
  * `DataPostProcessor._rerank_model_cache`
    (api/core/rag/data_post_processor/data_post_processor.py), ttl 1800 s, max size 50;
  * `WeightRerankRunner._embedding_model_cache`
    (api/core/rag/rerank/weight_rerank.py), ttl 1800 s, max size 50.
Each keeps an `OrderedDict` mapping an md5 cache key to a pair
`(value, cached_time)`, guarded by one lock, with counters
hits/misses/evictions/expired, and runs the same double-checked
fast-path/slow-path protocol (`Vector._init_vector`, `Vector._get_embeddings`,
`DataPostProcessor._get_rerank_model_instance`,
`WeightRerankRunner._get_cached_embedding_model`).  The embedding below
models that protocol once, parameterised by `ttl` and `max_size`, and
instantiates it at the per-cache constants.

Timestamps are modelled as integers (seconds); the code reads them from
`time.time()`.  The loader (`ModelManager.get_model_instance` or the vector
factory constructor) is an external collaborator and is modelled by its
result, an `Except` value: `Except.ok v` for a successful construction and
`Except.error e` for a raised exception.
-/

namespace Dify

/-- The counters of one cache (`_cache_stats` holds one such group of four
per cache). -/
structure CacheStats where
  hits : Nat
  misses : Nat
  evictions : Nat
  expired : Nat
deriving DecidableEq, Repr

/-- One cache: the `OrderedDict` contents, front = oldest (least recently
used), back = most recently used, each entry `(key, value, cached_time)`;
plus that cache's counters. -/
structure CacheState (K V : Type) where
  entries : List (K × V × Int)
  stats : CacheStats
deriving DecidableEq, Repr

variable {K V E : Type} [DecidableEq K]

/-- Dictionary lookup `cache[key]` / `key in cache`. -/
def lookupEntry (k : K) : List (K × V × Int) → Option (V × Int)
  | [] => none
  | (k', v, t) :: rest => if k' = k then some (v, t) else lookupEntry k rest

/-- Dictionary deletion `del cache[key]` (keys are unique in an
`OrderedDict`; removing every occurrence coincides with removing the one). -/
def removeKey (k : K) : List (K × V × Int) → List (K × V × Int)
  | [] => []
  | (k', v, t) :: rest =>
      if k' = k then removeKey k rest else (k', v, t) :: removeKey k rest

/-- `OrderedDict.move_to_end(key)`: detach the entry and reattach it at the
most-recently-used end.  The protocol only calls it on a present key. -/
def moveToEnd (k : K) (s : CacheState K V) : CacheState K V :=
  match lookupEntry k s.entries with
  | some (v, t) => { s with entries := removeKey k s.entries ++ [(k, v, t)] }
  | none => s

/-- Dictionary assignment `cache[key] = (value, now)`: replace in place when
the key is present, append at the most-recently-used end otherwise. -/
def insertEntry (k : K) (v : V) (t : Int) (s : CacheState K V) : CacheState K V :=
  if (lookupEntry k s.entries).isSome then
    { s with entries := s.entries.map (fun e => if e.1 = k then (k, v, t) else e) }
  else
    { s with entries := s.entries ++ [(k, v, t)] }

def incHits (s : CacheState K V) : CacheState K V :=
  { s with stats := { s.stats with hits := s.stats.hits + 1 } }

def incMisses (s : CacheState K V) : CacheState K V :=
  { s with stats := { s.stats with misses := s.stats.misses + 1 } }

/-- `_is_cache_expired`: `(time.time() - cached_time) > TTL`, with
`time.time()` passed in as `now`. -/
def is_cache_expired (ttl now cached_time : Int) : Bool :=
  decide (now - cached_time > ttl)

/-- The expiry decision exactly as the code computes it: `_is_cache_expired`
compares against `time.time()`, the wall clock.  At the lookup the wall
clock shows the insertion wall time plus the monotonic elapsed time plus
the net wall-clock adjustment made in between; `inserted_at` was captured
from the wall clock at insertion. -/
def wallClockExpiryDecision (ttl insert_wall elapsed adjustment : Int) : Bool :=
  is_cache_expired ttl (insert_wall + elapsed + adjustment) insert_wall

/-- `_evict_lru_*`: `if cache: cache.popitem(last=False); evictions += 1`. -/
def evict_lru (s : CacheState K V) : CacheState K V :=
  match s.entries with
  | [] => s
  | _ :: rest =>
      { entries := rest,
        stats := { s.stats with evictions := s.stats.evictions + 1 } }

/-- `_cleanup_expired_*`: collect every key whose age exceeds the TTL, delete
each, incrementing `expired` once per removal. -/
def cleanup_expired (ttl now : Int) (s : CacheState K V) : CacheState K V :=
  { entries := s.entries.filter (fun e => ¬ is_cache_expired ttl now e.2.2),
    stats := { s.stats with expired :=
      s.stats.expired + (s.entries.filter (fun e => is_cache_expired ttl now e.2.2)).length } }

/-- What one `get_or_load`-shaped call returns: the value or the propagated
loader error, the cache afterwards, whether the call was a hit, and whether
the loader was invoked. -/
structure LoadResult (K V E : Type) where
  result : Except E V
  state : CacheState K V
  hit : Bool
  loaded : Bool

/-- The fast path (first check, before taking the lock): on a fresh entry,
move it to most-recently-used, count a hit and return the value; on a stale
entry, delete it and count an expiration; otherwise fall through. -/
def fastPhase (ttl : Int) (k : K) (now : Int) (s : CacheState K V) :
    CacheState K V × Option V :=
  match lookupEntry k s.entries with
  | some (v, t) =>
      if is_cache_expired ttl now t then
        ({ entries := removeKey k s.entries,
           stats := { s.stats with expired := s.stats.expired + 1 } }, none)
      else
        (incHits (moveToEnd k s), some v)
  | none => (s, none)

/-- The double-check performed after acquiring the lock: a present, fresh
entry is treated as a hit (a stale one is left in place and falls through to
the miss path, where the expired sweep removes it). -/
def freshLookup (ttl : Int) (k : K) (now : Int) (s : CacheState K V) : Option (V × Int) :=
  match lookupEntry k s.entries with
  | some (v, t) => if is_cache_expired ttl now t then none else some (v, t)
  | none => none

/-- The slow path, run under the lock: double-check; on a miss count it, run
the expired sweep, invoke the loader; on success evict the least recently
used entry if the cache is full and insert the new entry at
most-recently-used; on a raised error propagate it without inserting. -/
def slowPath (ttl : Int) (max_size : Nat) (k : K) (load : Except E V) (now : Int)
    (s : CacheState K V) : LoadResult K V E :=
  match freshLookup ttl k now s with
  | some (v, _) =>
      { result := .ok v, state := incHits (moveToEnd k s), hit := true, loaded := false }
  | none =>
      let s2 := cleanup_expired ttl now (incMisses s)
      match load with
      | .error e => { result := .error e, state := s2, hit := false, loaded := true }
      | .ok v =>
          let s3 := if max_size ≤ s2.entries.length then evict_lru s2 else s2
          { result := .ok v, state := insertEntry k v now s3, hit := false, loaded := true }

/-- One full sequential `get_or_load` call, the shape shared by
`Vector._init_vector`, `Vector._get_embeddings`,
`DataPostProcessor._get_rerank_model_instance` and
`WeightRerankRunner._get_cached_embedding_model`: fast path first, then the
locked slow path. -/
def get_or_load (ttl : Int) (max_size : Nat) (k : K) (load : Except E V) (now : Int)
    (s : CacheState K V) : LoadResult K V E :=
  match fastPhase ttl k now s with
  | (s', some v) => { result := .ok v, state := s', hit := true, loaded := false }
  | (s', none) => slowPath ttl max_size k load now s'

/-- `clear_cache`: empty the map, keeping the counters. -/
def clear_cache (s : CacheState K V) : CacheState K V :=
  { s with entries := [] }

/-- `clear_cache_stats`: zero every counter, keeping the map. -/
def clear_cache_stats (s : CacheState K V) : CacheState K V :=
  { s with stats := ⟨0, 0, 0, 0⟩ }

/-- A cache starts empty with zeroed counters. -/
def emptyCache : CacheState K V := ⟨[], ⟨0, 0, 0, 0⟩⟩

/-- The per-cache constants of `Vector`. -/
def Vector.CACHE_TTL_SECONDS : Int := 1800

def Vector.CACHE_MAX_SIZE : Nat := 100

/-- The per-cache constants of `DataPostProcessor`. -/
def DataPostProcessor.RERANK_MODEL_CACHE_TTL_SECONDS : Int := 1800

def DataPostProcessor.RERANK_MODEL_CACHE_MAX_SIZE : Nat := 50

/-- The per-cache constants of `WeightRerankRunner`. -/
def WeightRerankRunner.EMBEDDING_CACHE_TTL_SECONDS : Int := 1800

def WeightRerankRunner.EMBEDDING_CACHE_MAX_SIZE : Nat := 50

/-- One public operation on a cache. -/
inductive CacheOp (K V E : Type) where
  | get_or_load (k : K) (load : Except E V) (now : Int)
  | clear_cache
  | clear_cache_stats
  | get_cache_stats
deriving Repr

/-- Apply one public operation (`get_cache_stats` reads a snapshot and leaves
the state unchanged). -/
def applyOp (ttl : Int) (max_size : Nat) : CacheOp K V E → CacheState K V → CacheState K V
  | .get_or_load k load now, s => (get_or_load ttl max_size k load now s).state
  | .clear_cache, s => clear_cache s
  | .clear_cache_stats, s => clear_cache_stats s
  | .get_cache_stats, s => s

/-- Run a sequence of public operations. -/
def runOps (ttl : Int) (max_size : Nat) (ops : List (CacheOp K V E))
    (s : CacheState K V) : CacheState K V :=
  ops.foldl (fun s op => applyOp ttl max_size op s) s

/-!
Concurrency model for the double-checked protocol.  Two OS threads race a
`get_or_load` on the same key `k` during one miss window (the key is absent
at the start; the window is short enough that the clock does not advance, so
every timestamp read is `now`).  Each thread takes two steps:

  * its unlocked fast check (`fastPhase`), which mutates the shared cache
    only through its own lock acquisitions (move-to-end on a hit, delete on
    expiry) and is modelled as one step;
  * its locked region (`slowPath`), one atomic step, because the mutex
    serialises everything between acquire and release: no step of the other
    thread that touches the cache under the lock can interleave with it.

Loaders are modelled as succeeding (the claim describes the window in which
a winner constructs the value and the loser observes it; a raised loader
error is not cached and the next request retries by design).
-/

/-- Where a racing thread stands: before its fast check, waiting for the
lock, or finished. -/
inductive ThreadPc where
  | start
  | waitLock
  | done
deriving DecidableEq, Repr

/-- The shared cache plus each thread's program counter and how many times
each thread has invoked the loader. -/
structure ConcState (K V : Type) where
  cache : CacheState K V
  pcA : ThreadPc
  pcB : ThreadPc
  loadsA : Nat
  loadsB : Nat

/-- A thread's unlocked fast check: the cache afterwards and whether the
thread finished with a hit. -/
def threadFast (ttl : Int) (k : K) (now : Int) (c : CacheState K V) :
    CacheState K V × Bool :=
  match fastPhase ttl k now c with
  | (c', some _) => (c', true)
  | (c', none) => (c', false)

/-- A thread's locked region: the cache afterwards and whether the loader
was invoked (`v` is the value this thread's loader would construct). -/
def threadCrit (ttl : Int) (max_size : Nat) (k : K) (v : V) (now : Int)
    (c : CacheState K V) : CacheState K V × Bool :=
  let r := slowPath (E := Unit) ttl max_size k (.ok v) now c
  (r.state, r.loaded)

/-- One interleaving step of the two-thread race. -/
inductive ConcStep (ttl : Int) (max_size : Nat) (k : K) (vA vB : V) (now : Int) :
    ConcState K V → ConcState K V → Prop where
  | fastA (s : ConcState K V) (h : s.pcA = .start) :
      ConcStep ttl max_size k vA vB now s
        { s with cache := (threadFast ttl k now s.cache).1,
                 pcA := if (threadFast ttl k now s.cache).2 then .done else .waitLock }
  | fastB (s : ConcState K V) (h : s.pcB = .start) :
      ConcStep ttl max_size k vA vB now s
        { s with cache := (threadFast ttl k now s.cache).1,
                 pcB := if (threadFast ttl k now s.cache).2 then .done else .waitLock }
  | critA (s : ConcState K V) (h : s.pcA = .waitLock) :
      ConcStep ttl max_size k vA vB now s
        { s with cache := (threadCrit ttl max_size k vA now s.cache).1,
                 pcA := .done,
                 loadsA := s.loadsA + (if (threadCrit ttl max_size k vA now s.cache).2 then 1 else 0) }
  | critB (s : ConcState K V) (h : s.pcB = .waitLock) :
      ConcStep ttl max_size k vA vB now s
        { s with cache := (threadCrit ttl max_size k vB now s.cache).1,
                 pcB := .done,
                 loadsB := s.loadsB + (if (threadCrit ttl max_size k vB now s.cache).2 then 1 else 0) }

/-- The states an interleaving of the race can reach, starting from an empty
cache (the key has never been loaded: a single miss window) with both
threads before their fast check. -/
inductive ConcReachable (ttl : Int) (max_size : Nat) (k : K) (vA vB : V) (now : Int) :
    ConcState K V → Prop where
  | init : ConcReachable ttl max_size k vA vB now ⟨emptyCache, .start, .start, 0, 0⟩
  | step {s s' : ConcState K V} :
      ConcReachable ttl max_size k vA vB now s →
      ConcStep ttl max_size k vA vB now s s' →
      ConcReachable ttl max_size k vA vB now s'

end Dify

/-!
Cache-key derivation.  Every cache derives its key as
`hashlib.md5(f"{field1}:{field2}:...".encode()).hexdigest()`
(`Vector._generate_embedding_cache_key`,
`Vector._generate_processor_cache_key`,
`DataPostProcessor._generate_rerank_model_cache_key`,
`WeightRerankRunner._generate_embedding_cache_key`).  `hashlib.md5` is the
standard library's MD5; it is implemented below from RFC 1321 so that the
key functions are total and executable.  `.encode()` is UTF-8.
-/

namespace Dify.MD5

/-- Two to the thirty-second: arithmetic is on 32-bit words. -/
def W32 : Nat := 4294967296

def add32 (a b : Nat) : Nat := (a + b) % W32

/-- Bitwise complement on a 32-bit word. -/
def not32 (a : Nat) : Nat := a ^^^ 4294967295

/-- Left-rotation of a 32-bit word by `s` bits. -/
def rotl32 (x s : Nat) : Nat := ((x <<< s) % W32) ||| (x >>> (32 - s))

/-- The 64 sine-derived round constants of RFC 1321. -/
def KTable : List Nat := [
  3614090360, 3905402710, 606105819, 3250441966, 4118548399, 1200080426, 2821735955, 4249261313,
  1770035416, 2336552879, 4294925233, 2304563134, 1804603682, 4254626195, 2792965006, 1236535329,
  4129170786, 3225465664, 643717713, 3921069994, 3593408605, 38016083, 3634488961, 3889429448,
  568446438, 3275163606, 4107603335, 1163531501, 2850285829, 4243563512, 1735328473, 2368359562,
  4294588738, 2272392833, 1839030562, 4259657740, 2763975236, 1272893353, 4139469664, 3200236656,
  681279174, 3936430074, 3572445317, 76029189, 3654602809, 3873151461, 530742520, 3299628645,
  4096336452, 1126891415, 2878612391, 4237533241, 1700485571, 2399980690, 4293915773, 2240044497,
  1873313359, 4264355552, 2734768916, 1309151649, 4149444226, 3174756917, 718787259, 3951481745]

/-- The per-round shift amounts of RFC 1321. -/
def STable : List Nat := [
  7, 12, 17, 22, 7, 12, 17, 22, 7, 12, 17, 22, 7, 12, 17, 22,
  5, 9, 14, 20, 5, 9, 14, 20, 5, 9, 14, 20, 5, 9, 14, 20,
  4, 11, 16, 23, 4, 11, 16, 23, 4, 11, 16, 23, 4, 11, 16, 23,
  6, 10, 15, 21, 6, 10, 15, 21, 6, 10, 15, 21, 6, 10, 15, 21]

/-- The round function F, G, H or I, chosen by the round index. -/
def mixF (i b c d : Nat) : Nat :=
  if i < 16 then (b &&& c) ||| (not32 b &&& d)
  else if i < 32 then (d &&& b) ||| (not32 d &&& c)
  else if i < 48 then b ^^^ c ^^^ d
  else c ^^^ (b ||| not32 d)

/-- Which message word round `i` consumes. -/
def msgIndex (i : Nat) : Nat :=
  if i < 16 then i
  else if i < 32 then (5 * i + 1) % 16
  else if i < 48 then (3 * i + 5) % 16
  else (7 * i) % 16

/-- One of the 64 rounds over the state `(a, b, c, d)`. -/
def roundStep (M : List Nat) (st : Nat × Nat × Nat × Nat) (i : Nat) : Nat × Nat × Nat × Nat :=
  let f := add32 (add32 (add32 st.1 (mixF i st.2.1 st.2.2.1 st.2.2.2)) (KTable.getD i 0))
             (M.getD (msgIndex i) 0)
  (st.2.2.2, add32 st.2.1 (rotl32 f (STable.getD i 0)), st.2.1, st.2.2.1)

/-- Process one 16-word chunk: 64 rounds, then add the old state back in. -/
def processChunk (st : Nat × Nat × Nat × Nat) (M : List Nat) : Nat × Nat × Nat × Nat :=
  let r := (List.range 64).foldl (roundStep M) st
  (add32 st.1 r.1, add32 st.2.1 r.2.1, add32 st.2.2.1 r.2.2.1, add32 st.2.2.2 r.2.2.2)

/-- A little-endian byte list read as a number. -/
def fromLE : List Nat → Nat
  | [] => 0
  | b :: rest => b + 256 * fromLE rest

/-- The `n` little-endian bytes of `x`. -/
def toLE (n x : Nat) : List Nat := (List.range n).map (fun i => (x / 256 ^ i) % 256)

/-- A 64-byte chunk as its 16 little-endian words. -/
def chunkWords (chunk : List Nat) : List Nat :=
  (List.range 16).map (fun j => fromLE ((chunk.drop (4 * j)).take 4))

/-- Split a byte list into 64-byte chunks. -/
def chunks64 : List Nat → List (List Nat)
  | [] => []
  | b :: rest => ((b :: rest).take 64) :: chunks64 ((b :: rest).drop 64)
termination_by l => l.length
decreasing_by simp [List.length_drop]; omega

/-- MD5 padding: a 1-bit, zeros up to 56 bytes mod 64, then the bit length
as 8 little-endian bytes. -/
def padded (msg : List Nat) : List Nat :=
  let p := (119 - msg.length % 64) % 64 + 1
  msg ++ 128 :: (List.replicate (p - 1) 0 ++ toLE 8 ((8 * msg.length) % 2 ^ 64))

/-- The 16-byte MD5 digest of a byte list. -/
def md5Bytes (msg : List Nat) : List Nat :=
  let st := (chunks64 (padded msg)).foldl (fun st ch => processChunk st (chunkWords ch))
    (1732584193, 4023233417, 2562383102, 271733878)
  toLE 4 st.1 ++ toLE 4 st.2.1 ++ toLE 4 st.2.2.1 ++ toLE 4 st.2.2.2

def hexDigit (n : Nat) : Char :=
  if n < 10 then Char.ofNat (48 + n) else Char.ofNat (87 + n)

def byteHex (b : Nat) : List Char := [hexDigit (b / 16), hexDigit (b % 16)]

/-- UTF-8 encoding of one character (`str.encode()`). -/
def utf8Bytes (c : Char) : List Nat :=
  let n := c.toNat
  if n < 128 then [n]
  else if n < 2048 then [192 + n / 64, 128 + n % 64]
  else if n < 65536 then [224 + n / 4096, 128 + (n / 64) % 64, 128 + n % 64]
  else [240 + n / 262144, 128 + (n / 4096) % 64, 128 + (n / 64) % 64, 128 + n % 64]

/-- The UTF-8 bytes of a string. -/
def stringBytes (s : String) : List Nat := (s.data.map utf8Bytes).flatten

/-- `hashlib.md5(s.encode()).hexdigest()`. -/
def md5Hex (s : String) : String := ⟨((md5Bytes (stringBytes s)).map byteHex).flatten⟩

end Dify.MD5

namespace Dify

/-- The pre-digest key string of the three-field model caches:
the f-string `"tenant_id:provider:model"`. -/
def modelKeyString (tenant_id provider model : String) : String :=
  tenant_id ++ ":" ++ provider ++ ":" ++ model

/-- The pre-digest key string of the vector-processor cache:
the f-string `"dataset_id:vector_type"`. -/
def processorKeyString (dataset_id vector_type : String) : String :=
  dataset_id ++ ":" ++ vector_type

/-- `Vector._generate_embedding_cache_key`. -/
def Vector.generate_embedding_cache_key (tenant_id provider model : String) : String :=
  MD5.md5Hex (modelKeyString tenant_id provider model)

/-- `Vector._generate_processor_cache_key`. -/
def Vector.generate_processor_cache_key (dataset_id vector_type : String) : String :=
  MD5.md5Hex (processorKeyString dataset_id vector_type)

/-- `WeightRerankRunner._generate_embedding_cache_key`. -/
def WeightRerankRunner.generate_embedding_cache_key (tenant_id provider model : String) : String :=
  MD5.md5Hex (modelKeyString tenant_id provider model)

/-- `DataPostProcessor._generate_rerank_model_cache_key`. -/
def DataPostProcessor.generate_rerank_model_cache_key (tenant_id provider model : String) : String :=
  MD5.md5Hex (modelKeyString tenant_id provider model)

end Dify

/-!
The documents flowing through the rerank pipeline
(`core.rag.models.document.Document`).  `metadata` is a string-keyed dict or
`None`; the pipeline writes the numeric `"score"` and the keyword list
`"keywords"` into it.  Scores are modelled over the rationals.
-/

namespace Dify

/-- A metadata value the pipeline stores. -/
inductive MetaVal where
  | num (q : ℚ)
  | keywords (ks : List String)
deriving DecidableEq, Repr

/-- An insertion-ordered string-keyed dict, as `Document.metadata` when not
`None`. -/
abbrev Metadata := List (String × MetaVal)

/-- `metadata[key]` lookup / `key in metadata`. -/
def metaGet (key : String) : Metadata → Option MetaVal
  | [] => none
  | (k, v) :: rest => if k = key then some v else metaGet key rest

/-- `metadata[key] = v`: replace in place if present, append otherwise. -/
def metaSet (key : String) (v : MetaVal) (m : Metadata) : Metadata :=
  if (metaGet key m).isSome then m.map (fun kv => if kv.1 = key then (key, v) else kv)
  else m ++ [(key, v)]

/-- The number a metadata value carries.  The source reads
`metadata["score"]` as a number wherever it reads it at all; a list stored
under `"score"` would be a type error there, read here as 0. -/
def MetaVal.asNum : MetaVal → ℚ
  | .num q => q
  | .keywords _ => 0

/-- A retrieval document: text, optional metadata, optional precomputed
embedding vector. -/
structure Document where
  page_content : String
  metadata : Option Metadata
  vector : Option (List ℚ)
deriving DecidableEq, Repr

/-- `VectorSetting` of `core.rag.rerank.entity.weight`. -/
structure VectorSetting where
  vector_weight : ℚ
  embedding_provider_name : String
  embedding_model_name : String
deriving DecidableEq, Repr

/-- `KeywordSetting` of `core.rag.rerank.entity.weight`. -/
structure KeywordSetting where
  keyword_weight : ℚ
deriving DecidableEq, Repr

/-- `Weights` of `core.rag.rerank.entity.weight`. -/
structure Weights where
  vector_setting : VectorSetting
  keyword_setting : KeywordSetting
deriving DecidableEq, Repr

end Dify

/-!
`DataPostProcessor` (api/core/rag/data_post_processor/data_post_processor.py):
runner selection and `invoke`.  `RerankRunnerFactory`, `ReorderRunner` and
the model manager live outside src/ and are collaborators: the constructed
runners are modelled as tagged values, the reorder step and a runner's `run`
as opaque functions, the rerank loader by its `Except` result.
-/

namespace Dify.DataPostProcessor

/-- How the rerank loader can fail: `InvokeAuthorizationError` (the one
exception `_get_rerank_model_instance` catches) or anything else (which
propagates). -/
inductive LoadError where
  | unauthorized
  | other
deriving DecidableEq, Repr

/-- The `reranking_model` dict: `dict.get` of each name key (`none` models a
missing key, `some ""` an empty string value). -/
structure RerankingModelConfig where
  reranking_provider_name : Option String
  reranking_model_name : Option String
deriving DecidableEq, Repr

/-- Python falsiness of `dict.get`'s result (`not name`): missing or empty. -/
def falsyStr : Option String → Bool
  | none => true
  | some s => s.isEmpty

/-- `DataPostProcessor._get_rerank_model_instance`: `None` for a missing or
name-less model dict, otherwise the cache protocol on the rerank-model
cache with `InvokeAuthorizationError` caught (returning `None`, caching
nothing) and every other loader error propagated.  The first component is
`.ok none` for a `None` return, `.ok (some v)` for an instance, `.error ()`
for a propagated exception; the second is the rerank-model cache
afterwards. -/
def get_rerank_model_instance {V : Type} (tenant_id : String)
    (reranking_model : Option RerankingModelConfig) (load : Except LoadError V)
    (now : Int) (s : CacheState String V) :
    Except Unit (Option V) × CacheState String V :=
  match reranking_model with
  | none => (.ok none, s)
  | some cfg =>
      if falsyStr cfg.reranking_provider_name || falsyStr cfg.reranking_model_name then
        (.ok none, s)
      else
        let cache_key := generate_rerank_model_cache_key tenant_id
          (cfg.reranking_provider_name.getD "") (cfg.reranking_model_name.getD "")
        let r := get_or_load RERANK_MODEL_CACHE_TTL_SECONDS RERANK_MODEL_CACHE_MAX_SIZE
          cache_key load now s
        match r.result with
        | .ok v => (.ok (some v), r.state)
        | .error .unauthorized => (.ok none, r.state)
        | .error .other => (.error (), r.state)

/-- The `reranking_mode` argument. -/
inductive RerankMode where
  | weighted_score
  | reranking_model
  | otherMode
deriving DecidableEq, Repr

/-- The runner `_get_rerank_runner` selects: a `WeightRerankRunner` built
from the parsed weights, or a `RerankModelRunner` holding the loaded model
instance. -/
inductive RerankRunner (V W : Type) where
  | weighted (w : W)
  | model (inst : V)

/-- `DataPostProcessor._get_rerank_runner`: weighted runner when the mode is
`weighted_score` and a (truthy) weights dict is given; for
`reranking_model`, a model runner unless the instance resolves to `None`;
`None` otherwise. -/
def get_rerank_runner {V W : Type} (reranking_mode : RerankMode) (tenant_id : String)
    (reranking_model : Option RerankingModelConfig) (weights : Option W)
    (load : Except LoadError V) (now : Int) (s : CacheState String V) :
    Except Unit (Option (RerankRunner V W)) × CacheState String V :=
  match reranking_mode, weights with
  | .weighted_score, some w => (.ok (some (.weighted w)), s)
  | .reranking_model, _ =>
      (match get_rerank_model_instance tenant_id reranking_model load now s with
       | (.ok none, s') => (.ok none, s')
       | (.ok (some v), s') => (.ok (some (.model v)), s')
       | (.error e, s') => (.error e, s'))
  | _, _ => (.ok none, s)

/-- `DataPostProcessor._get_reorder_runner`: a reorder runner only when
enabled. -/
def get_reorder_runner {R : Type} (reorder_enabled : Bool) (runner : R) : Option R :=
  if reorder_enabled then some runner else none

/-- `DataPostProcessor.invoke`: apply the rerank runner when present, then
the reorder runner when present.  `runRunner` is the selected runner's
`run(query, documents, score_threshold, top_n, user)` with everything but
the documents already applied. -/
def invoke {V W Doc : Type} (rerank_runner : Option (RerankRunner V W))
    (runRunner : RerankRunner V W → List Doc → List Doc)
    (reorder_runner : Option (List Doc → List Doc))
    (documents : List Doc) : List Doc :=
  let d1 := match rerank_runner with
    | some r => runRunner r documents
    | none => documents
  match reorder_runner with
  | some f => f d1
  | none => d1

end Dify.DataPostProcessor

/-!
`WeightRerankRunner.run` and its score computations
(api/core/rag/rerank/weight_rerank.py).  Collaborators are passed as
functions: `extract` is `JiebaKeywordTableHandler.extract_keywords`, `embed`
is the cached embedder's `embed_query` (resolved in the source through
`_get_cached_embedding_model`, the cache protocol verified above), and
`lnQ` / `sqrtQ` stand for the external `math.log` / `math.sqrt`-`np.linalg.norm`
routines, which are irrational-valued and so enter the rational model as
parameters.  Rational division by zero is 0; the source does not guard the
numpy cosine against a zero denominator (numpy would yield nan there), and
that branch is outside every property proved below.
-/

namespace Dify.WeightRerankRunner

/-- Distinct elements in first-occurrence order (the iteration order of
`Counter`'s keys). -/
def dedup : List String → List String
  | [] => []
  | x :: xs => x :: dedup (xs.filter (fun y => y ≠ x))
termination_by l => l.length
decreasing_by
  have := List.length_filter_le (fun y => decide (y ≠ x)) xs
  simp only [List.length_cons]
  omega

/-- How many times `x` occurs in `l`. -/
def countOcc (x : String) (l : List String) : Nat :=
  (l.filter (fun y => y = x)).length

/-- `Counter(l)`: each distinct element with its count (term frequency). -/
def counterList (l : List String) : List (String × Nat) :=
  (dedup l).map (fun x => (x, countOcc x l))

/-- `keyword_idf` with the `.get(keyword, 0)` default folded in:
`ln((1 + total_documents) / (1 + doc_count_containing_keyword)) + 1` for a
keyword of the corpus, 0 for any other keyword. -/
def idfOf (lnQ : ℚ → ℚ) (total_documents : Nat) (documents_keywords : List (List String))
    (kw : String) : ℚ :=
  if documents_keywords.any (fun dk => dk.contains kw) then
    lnQ ((1 + (total_documents : ℚ)) /
      (1 + ((documents_keywords.filter (fun dk => dk.contains kw)).length : ℚ))) + 1
  else 0

/-- A tf-idf vector (sparse, keyed by keyword): `tf * idf` per distinct
keyword of `kws`. -/
def tfidfVec (lnQ : ℚ → ℚ) (total_documents : Nat) (documents_keywords : List (List String))
    (kws : List String) : List (String × ℚ) :=
  (counterList kws).map (fun p => (p.1, (p.2 : ℚ) * idfOf lnQ total_documents documents_keywords p.1))

/-- Lookup in a sparse vector. -/
def qGet (k : String) : List (String × ℚ) → Option ℚ
  | [] => none
  | (k', v) :: rest => if k' = k then some v else qGet k rest

/-- The nested `cosine_similarity(vec1, vec2)` of
`_calculate_keyword_score`: dot product over the key intersection divided by
the product of the norms, 0 when the denominator is falsy (0). -/
def cosine_similarity (sqrtQ : ℚ → ℚ) (vec1 vec2 : List (String × ℚ)) : ℚ :=
  let numerator := ((vec1.filter (fun p => (qGet p.1 vec2).isSome)).map
    (fun p => p.2 * ((qGet p.1 vec2).getD 0))).sum
  let sum1 := (vec1.map (fun p => p.2 ^ 2)).sum
  let sum2 := (vec2.map (fun p => p.2 ^ 2)).sum
  let denominator := sqrtQ sum1 * sqrtQ sum2
  if denominator = 0 then 0 else numerator / denominator

/-- The keyword-extraction side effect of `_calculate_keyword_score`'s first
loop on one document: write `metadata["keywords"]` when metadata is not
`None`. -/
def annotateKeywords (extract : String → List String) (d : Document) : Document :=
  match d.metadata with
  | some m =>
      { d with metadata := some (metaSet "keywords" (.keywords (extract d.page_content)) m) }
  | none => d

/-- `WeightRerankRunner._calculate_keyword_score`: annotate each document's
keywords, build the corpus `documents_keywords` (note: only from documents
whose metadata is not `None`, while `total_documents` counts all), compute
the query and per-document tf-idf vectors and their cosine similarities.
Returns the annotated documents (the loop mutates them in place in the
source) and the similarity list. -/
def calculate_keyword_score (extract : String → List String) (lnQ sqrtQ : ℚ → ℚ)
    (query : String) (documents : List Document) : List Document × List ℚ :=
  let query_keywords := extract query
  let annotated := documents.map (annotateKeywords extract)
  let documents_keywords := documents.filterMap (fun d =>
    if d.metadata.isSome then some (extract d.page_content) else none)
  let total_documents := documents.length
  let query_tfidf := tfidfVec lnQ total_documents documents_keywords query_keywords
  let documents_tfidf := documents_keywords.map (tfidfVec lnQ total_documents documents_keywords)
  (annotated, documents_tfidf.map (cosine_similarity sqrtQ query_tfidf))

/-- `np.dot` of two equal-length vectors. -/
def dotQ (v1 v2 : List ℚ) : ℚ := ((v1.zip v2).map (fun p => p.1 * p.2)).sum

/-- `np.linalg.norm`, through the `sqrtQ` collaborator. -/
def normQ (sqrtQ : ℚ → ℚ) (v : List ℚ) : ℚ := sqrtQ ((v.map (fun x => x ^ 2)).sum)

/-- The numpy cosine of `_calculate_cosine`'s else-branch (no zero-denominator
guard in the source; rational division by zero is 0 here). -/
def npCosine (sqrtQ : ℚ → ℚ) (v1 v2 : List ℚ) : ℚ :=
  dotQ v1 v2 / (normQ sqrtQ v1 * normQ sqrtQ v2)

/-- `WeightRerankRunner._calculate_cosine`: embed the query once; per
document, reuse a truthy metadata's existing `"score"` verbatim, otherwise
the cosine of the query vector and `document.vector` (a `None` vector there
is the client contract violation the spec leaves undefined; it is read as
the empty vector). -/
def calculate_cosine (sqrtQ : ℚ → ℚ) (embed : String → List ℚ) (query : String)
    (documents : List Document) : List ℚ :=
  let query_vector := embed query
  documents.map (fun d =>
    match d.metadata with
    | some m =>
        if !m.isEmpty && (metaGet "score" m).isSome then ((metaGet "score" m).getD (.num 0)).asNum
        else npCosine sqrtQ query_vector (d.vector.getD [])
    | none => npCosine sqrtQ query_vector (d.vector.getD []))

/-- Python truthiness of the `score_threshold` argument: given and nonzero. -/
def truthyThreshold : Option ℚ → Bool
  | none => false
  | some q => decide (q ≠ 0)

/-- Python truthiness of the `top_n` argument: given and nonzero. -/
def truthyTopN : Option Nat → Bool
  | none => false
  | some n => decide (n ≠ 0)

/-- The fusion loop of `run`: walk `zip(documents, query_scores,
query_vector_scores)` (truncating to the shortest list, as `zip` does);
`score = vector_weight * query_vector_score + keyword_weight * query_score`;
skip the document when the threshold is truthy and `score <
score_threshold`; write `metadata["score"]` and collect the document when
its metadata is not `None`. -/
def fuseLoop (vector_weight keyword_weight : ℚ) (score_threshold : Option ℚ) :
    List Document → List ℚ → List ℚ → List Document
  | d :: ds, qs :: qss, qvs :: qvss =>
      let score := vector_weight * qvs + keyword_weight * qs
      if truthyThreshold score_threshold && decide (score < score_threshold.getD 0) then
        fuseLoop vector_weight keyword_weight score_threshold ds qss qvss
      else
        match d.metadata with
        | some m =>
            { d with metadata := some (metaSet "score" (.num score) m) } ::
              fuseLoop vector_weight keyword_weight score_threshold ds qss qvss
        | none => fuseLoop vector_weight keyword_weight score_threshold ds qss qvss
  | _, _, _ => []

/-- The sort key of `run`: `x.metadata["score"] if x.metadata else 0`
(falsy-`None`-or-empty metadata gives 0; a truthy metadata without
`"score"` would raise in the source and is read as 0, unreachable for the
lists `run` sorts). -/
def sortKey (d : Document) : ℚ :=
  match d.metadata with
  | some m => if m.isEmpty then 0 else ((metaGet "score" m).getD (.num 0)).asNum
  | none => 0

/-- Insert into a descending-sorted list, before the first strictly smaller
key (stable, as `list.sort(reverse=True)` is). -/
def insertDesc (a : Document) : List Document → List Document
  | [] => [a]
  | b :: bs => if sortKey b ≤ sortKey a then a :: b :: bs else b :: insertDesc a bs

/-- `rerank_documents.sort(key=..., reverse=True)`: stable descending sort
by `sortKey`. -/
def sortDesc : List Document → List Document
  | [] => []
  | x :: xs => insertDesc x (sortDesc xs)

/-- `WeightRerankRunner.run`: keyword scores, vector scores, fusion with
threshold filtering and metadata write, stable descending sort, truncation
to `top_n` when that argument is truthy. -/
def run (extract : String → List String) (lnQ sqrtQ : ℚ → ℚ) (embed : String → List ℚ)
    (weights : Weights) (query : String) (documents : List Document)
    (score_threshold : Option ℚ) (top_n : Option Nat) : List Document :=
  let ks := calculate_keyword_score extract lnQ sqrtQ query documents
  let query_vector_scores := calculate_cosine sqrtQ embed query ks.1
  let rerank_documents := fuseLoop weights.vector_setting.vector_weight
    weights.keyword_setting.keyword_weight score_threshold ks.1 ks.2 query_vector_scores
  let sorted := sortDesc rerank_documents
  if truthyTopN top_n then sorted.take (top_n.getD 0) else sorted

end Dify.WeightRerankRunner

/-! Helper lemmas about the cache operations. -/

namespace Dify

variable {K V E : Type} [DecidableEq K]

theorem lookupEntry_eq_none_iff (k : K) (l : List (K × V × Int)) :
    lookupEntry k l = none ↔ ∀ e ∈ l, e.1 ≠ k := by
  induction l with
  | nil => simp [lookupEntry]
  | cons e rest ih =>
      obtain ⟨k', v, t⟩ := e
      by_cases h : k' = k
      · simp [lookupEntry, h]
      · simp [lookupEntry, h, ih]

theorem lookupEntry_none_sublist {k : K} {l l' : List (K × V × Int)}
    (hs : List.Sublist l' l) (hn : lookupEntry k l = none) : lookupEntry k l' = none := by
  rw [lookupEntry_eq_none_iff] at hn ⊢
  exact fun e he => hn e (hs.subset he)

theorem lookupEntry_removeKey_self (k : K) (l : List (K × V × Int)) :
    lookupEntry k (removeKey k l) = none := by
  induction l with
  | nil => rfl
  | cons e rest ih =>
      obtain ⟨k', v, t⟩ := e
      by_cases h : k' = k
      · simpa [removeKey, h] using ih
      · simpa [removeKey, lookupEntry, h] using ih

theorem lookupEntry_append_of_none {k : K} {l : List (K × V × Int)}
    (h : lookupEntry k l = none) (l' : List (K × V × Int)) :
    lookupEntry k (l ++ l') = lookupEntry k l' := by
  induction l with
  | nil => rfl
  | cons e rest ih =>
      obtain ⟨k', v, t⟩ := e
      by_cases hk : k' = k
      · simp [lookupEntry, hk] at h
      · simp only [lookupEntry, hk, if_false, List.cons_append] at h ⊢
        simpa [lookupEntry, hk] using ih h

theorem removeKey_length_le (k : K) (l : List (K × V × Int)) :
    (removeKey k l).length ≤ l.length := by
  induction l with
  | nil => simp [removeKey]
  | cons e rest ih =>
      obtain ⟨k', v, t⟩ := e
      by_cases h : k' = k
      · simp only [removeKey, h, if_true, List.length_cons]
        omega
      · simp only [removeKey, h, if_false, List.length_cons]
        omega

theorem removeKey_length_lt {k : K} {l : List (K × V × Int)} {x : V × Int}
    (h : lookupEntry k l = some x) : (removeKey k l).length < l.length := by
  induction l with
  | nil => simp [lookupEntry] at h
  | cons e rest ih =>
      obtain ⟨k', v, t⟩ := e
      by_cases hk : k' = k
      · have := removeKey_length_le (V := V) k rest
        simp only [removeKey, hk, if_true, List.length_cons]
        omega
      · simp only [lookupEntry, hk, if_false] at h
        have := ih h
        simp only [removeKey, hk, if_false, List.length_cons]
        omega

theorem moveToEnd_entries_length_le (k : K) (s : CacheState K V) :
    (moveToEnd k s).entries.length ≤ s.entries.length := by
  unfold moveToEnd
  cases h : lookupEntry k s.entries with
  | none => exact le_rfl
  | some x =>
      obtain ⟨v, t⟩ := x
      have := removeKey_length_lt h
      simp only [List.length_append, List.length_singleton]
      omega

theorem lookupEntry_moveToEnd_self {k : K} {s : CacheState K V} {v : V} {t : Int}
    (h : lookupEntry k s.entries = some (v, t)) :
    lookupEntry k (moveToEnd k s).entries = some (v, t) := by
  unfold moveToEnd
  rw [h]
  simp only
  rw [lookupEntry_append_of_none (lookupEntry_removeKey_self k s.entries)]
  simp [lookupEntry]

theorem insertEntry_entries_of_none {k : K} {s : CacheState K V} {v : V} {t : Int}
    (h : lookupEntry k s.entries = none) :
    (insertEntry k v t s).entries = s.entries ++ [(k, v, t)] := by
  unfold insertEntry
  rw [h]
  simp

theorem insertEntry_entries_length_le (k : K) (v : V) (t : Int) (s : CacheState K V) :
    (insertEntry k v t s).entries.length ≤ s.entries.length + 1 := by
  unfold insertEntry
  by_cases h : (lookupEntry k s.entries).isSome
  · simp [h]
  · simp [h]

theorem cleanup_expired_entries (ttl now : Int) (s : CacheState K V) :
    (cleanup_expired ttl now s).entries =
      s.entries.filter (fun e => ¬ is_cache_expired ttl now e.2.2) := rfl

theorem cleanup_expired_entries_length_le (ttl now : Int) (s : CacheState K V) :
    (cleanup_expired ttl now s).entries.length ≤ s.entries.length :=
  List.length_filter_le _ _

theorem evict_lru_entries_length_le (s : CacheState K V) :
    (evict_lru s).entries.length ≤ s.entries.length := by
  obtain ⟨entries, stats⟩ := s
  cases entries with
  | nil => exact le_rfl
  | cons e rest => simp [evict_lru]

theorem evict_lru_entries_length_of_ne_nil {s : CacheState K V} (h : s.entries ≠ []) :
    (evict_lru s).entries.length = s.entries.length - 1 := by
  obtain ⟨entries, stats⟩ := s
  cases entries with
  | nil => exact absurd rfl h
  | cons e rest => simp [evict_lru]

theorem slowPath_entries_length_le {max_size : Nat} (hm : 1 ≤ max_size)
    {s : CacheState K V} (h : s.entries.length ≤ max_size)
    (ttl : Int) (k : K) (load : Except E V) (now : Int) :
    (slowPath ttl max_size k load now s).state.entries.length ≤ max_size := by
  unfold slowPath
  cases hf : freshLookup ttl k now s with
  | some x =>
      obtain ⟨v, t⟩ := x
      simp only [incHits]
      exact le_trans (moveToEnd_entries_length_le k s) h
  | none =>
      have h2 : (cleanup_expired ttl now (incMisses s)).entries.length ≤ max_size :=
        le_trans (cleanup_expired_entries_length_le _ _ _) h
      cases load with
      | error e => simpa using h2
      | ok v =>
          simp only
          by_cases hfull : max_size ≤ (cleanup_expired ttl now (incMisses s)).entries.length
          · rw [if_pos hfull]
            have hne : (cleanup_expired ttl now (incMisses s)).entries ≠ [] := by
              intro hnil
              rw [hnil] at hfull
              simp at hfull
              omega
            have hev := evict_lru_entries_length_of_ne_nil hne
            have := insertEntry_entries_length_le k v now
              (evict_lru (cleanup_expired ttl now (incMisses s)))
            omega
          · rw [if_neg hfull]
            have := insertEntry_entries_length_le k v now
              (cleanup_expired ttl now (incMisses s))
            omega

theorem get_or_load_entries_length_le {max_size : Nat} (hm : 1 ≤ max_size)
    {s : CacheState K V} (h : s.entries.length ≤ max_size)
    (ttl : Int) (k : K) (load : Except E V) (now : Int) :
    (get_or_load ttl max_size k load now s).state.entries.length ≤ max_size := by
  unfold get_or_load fastPhase
  cases hl : lookupEntry k s.entries with
  | some x =>
      obtain ⟨v, t⟩ := x
      by_cases hex : is_cache_expired ttl now t
      · simp only [hex, if_true]
        exact slowPath_entries_length_le hm
          (le_trans (removeKey_length_le k s.entries) h) ttl k load now
      · simp only [hex, if_false, Bool.false_eq_true]
        exact le_trans (moveToEnd_entries_length_le k s) h
  | none =>
      exact slowPath_entries_length_le hm h ttl k load now

theorem applyOp_entries_length_le {max_size : Nat} (hm : 1 ≤ max_size)
    {s : CacheState K V} (h : s.entries.length ≤ max_size)
    (ttl : Int) (op : CacheOp K V E) :
    (applyOp ttl max_size op s).entries.length ≤ max_size := by
  cases op with
  | get_or_load k load now => exact get_or_load_entries_length_le hm h ttl k load now
  | clear_cache => simp [applyOp, clear_cache]
  | clear_cache_stats => exact h
  | get_cache_stats => exact h

theorem runOps_entries_length_le {max_size : Nat} (hm : 1 ≤ max_size)
    {s : CacheState K V} (h : s.entries.length ≤ max_size)
    (ttl : Int) (ops : List (CacheOp K V E)) :
    (runOps ttl max_size ops s).entries.length ≤ max_size := by
  induction ops generalizing s with
  | nil => exact h
  | cons op rest ih => exact ih (applyOp_entries_length_le hm h ttl op)

theorem slowPath_hit_false {k : K} {s : CacheState K V}
    (h : lookupEntry k s.entries = none) (ttl : Int) (max_size : Nat)
    (load : Except E V) (now : Int) :
    (slowPath ttl max_size k load now s).hit = false := by
  have hf : freshLookup ttl k now s = none := by
    unfold freshLookup
    rw [h]
  unfold slowPath
  rw [hf]
  cases load <;> rfl

theorem get_or_load_of_none {k : K} {s : CacheState K V}
    (h : lookupEntry k s.entries = none) (ttl : Int) (max_size : Nat)
    (load : Except E V) (now : Int) :
    get_or_load ttl max_size k load now s = slowPath ttl max_size k load now s := by
  simp only [get_or_load, fastPhase, h]

theorem slowPath_error_of_none {k : K} {s : CacheState K V}
    (h : lookupEntry k s.entries = none) (ttl : Int) (max_size : Nat)
    (e : E) (now : Int) :
    slowPath ttl max_size k (Except.error e) now s =
      { result := .error e, state := cleanup_expired ttl now (incMisses s),
        hit := false, loaded := true } := by
  have hf : freshLookup ttl k now s = none := by
    unfold freshLookup
    rw [h]
  unfold slowPath
  rw [hf]

theorem get_or_load_loaded_of_none {k : K} {s : CacheState K V}
    (h : lookupEntry k s.entries = none) (ttl : Int) (max_size : Nat)
    (load : Except E V) (now : Int) :
    (get_or_load ttl max_size k load now s).loaded = true := by
  rw [get_or_load_of_none h]
  have hf : freshLookup ttl k now s = none := by
    unfold freshLookup
    rw [h]
  unfold slowPath
  rw [hf]
  cases load <;> rfl

/-- Every hit of `get_or_load` is a fast-path hit on a present, fresh entry
(sequentially, the locked double-check can never hit: the fast path either
returned or left the key absent), and its effect is exactly move-to-end plus
a hit count. -/
theorem get_or_load_hit {ttl : Int} {max_size : Nat} {k : K} {load : Except E V}
    {now : Int} {s : CacheState K V}
    (hhit : (get_or_load ttl max_size k load now s).hit = true) :
    ∃ v t, lookupEntry k s.entries = some (v, t) ∧ is_cache_expired ttl now t = false ∧
      get_or_load ttl max_size k load now s =
        { result := .ok v, state := incHits (moveToEnd k s), hit := true, loaded := false } := by
  cases hl : lookupEntry k s.entries with
  | none =>
      rw [get_or_load_of_none hl, slowPath_hit_false hl] at hhit
      exact absurd hhit (by simp)
  | some x =>
      obtain ⟨v, t⟩ := x
      by_cases hex : is_cache_expired ttl now t
      · have hrw : get_or_load ttl max_size k load now s =
            slowPath ttl max_size k load now
              ⟨removeKey k s.entries, { s.stats with expired := s.stats.expired + 1 }⟩ := by
          simp only [get_or_load, fastPhase, hl, hex, if_true]
        rw [hrw, slowPath_hit_false (lookupEntry_removeKey_self k s.entries)] at hhit
        exact absurd hhit (by simp)
      · refine ⟨v, t, rfl, by simpa using hex, ?_⟩
        simp only [get_or_load, fastPhase, hl, hex, if_false, Bool.false_eq_true]

end Dify

/-! The claim theorems. -/

namespace Dify

variable {K V E : Type} [DecidableEq K]

/-- C1: for every sequence of public cache operations on any of the three
caches (embedding-model cache, vector-processor cache, rerank-model cache,
weighted-rerank embedding cache), after each operation returns — every
prefix of a sequence being itself a sequence — the number of entries in
that cache is at most its configured max size: 100 for the embedding and
vector-processor caches, 50 for the rerank-model and weighted-rerank
embedding caches. -/
theorem C1_bounded_size (K V E : Type) [DecidableEq K] (ops : List (CacheOp K V E)) :
    (runOps Vector.CACHE_TTL_SECONDS Vector.CACHE_MAX_SIZE ops
        emptyCache).entries.length ≤ Vector.CACHE_MAX_SIZE ∧
    (runOps DataPostProcessor.RERANK_MODEL_CACHE_TTL_SECONDS
        DataPostProcessor.RERANK_MODEL_CACHE_MAX_SIZE ops
        emptyCache).entries.length ≤ DataPostProcessor.RERANK_MODEL_CACHE_MAX_SIZE ∧
    (runOps WeightRerankRunner.EMBEDDING_CACHE_TTL_SECONDS
        WeightRerankRunner.EMBEDDING_CACHE_MAX_SIZE ops
        emptyCache).entries.length ≤ WeightRerankRunner.EMBEDDING_CACHE_MAX_SIZE :=
  ⟨runOps_entries_length_le (by norm_num [Vector.CACHE_MAX_SIZE])
      (by simp [emptyCache]) _ _,
   runOps_entries_length_le (by norm_num [DataPostProcessor.RERANK_MODEL_CACHE_MAX_SIZE])
      (by simp [emptyCache]) _ _,
   runOps_entries_length_le (by norm_num [WeightRerankRunner.EMBEDDING_CACHE_MAX_SIZE])
      (by simp [emptyCache]) _ _⟩

/-- C2: whenever a cache lookup returns a cached value to the caller
(a hit), the returned entry is fresh at the freshness check: the elapsed
time since its `inserted_at` timestamp is at most the cache's ttl; no entry
whose age exceeds the TTL is ever returned. -/
theorem C2_freshness (K V E : Type) [DecidableEq K] (ttl : Int) (max_size : Nat)
    (k : K) (load : Except E V) (now : Int) (s : CacheState K V)
    (hhit : (get_or_load ttl max_size k load now s).hit = true) :
    ∃ v t, lookupEntry k s.entries = some (v, t) ∧ now - t ≤ ttl ∧
      (get_or_load ttl max_size k load now s).result = .ok v := by
  obtain ⟨v, t, hl, hex, heq⟩ := get_or_load_hit hhit
  refine ⟨v, t, hl, ?_, by rw [heq]⟩
  simp only [is_cache_expired, decide_eq_false_iff_not, not_lt] at hex
  omega

/-- Witness for C2 at a concrete input: key 1 inserted at time 0, looked up
at time 5 against ttl 1800. -/
theorem C2_freshness_witness :
    ∃ v t, lookupEntry (1 : Nat) [((1 : Nat), (7 : Nat), (0 : Int))] = some (v, t) ∧
      (5 : Int) - t ≤ 1800 ∧
      (get_or_load (E := Unit) 1800 100 1 (.ok 9) 5 ⟨[(1, 7, 0)], ⟨0, 0, 0, 0⟩⟩).result = .ok v :=
  C2_freshness Nat Nat Unit 1800 100 1 (.ok 9) 5 ⟨[(1, 7, 0)], ⟨0, 0, 0, 0⟩⟩ (by decide)

/-- C5: every cache hit moves the hit entry to the most-recently-used
position (the back of the ordered map, its value and timestamp unchanged);
and with max size 3, inserting distinct fresh keys 1, 2, 3, hitting 1, then
inserting 4 leaves exactly the entries for keys 3, 1, 4 — key 2 evicted
from the least-recently-used front — with one hit, four misses, exactly one
eviction and no expirations counted. -/
theorem C5_lru_order :
    (∀ (K V E : Type) [DecidableEq K] (ttl : Int) (max_size : Nat) (k : K)
      (load : Except E V) (now : Int) (s : CacheState K V),
      (get_or_load ttl max_size k load now s).hit = true →
      ∃ v t, lookupEntry k s.entries = some (v, t) ∧
        (get_or_load ttl max_size k load now s).state.entries.getLast? = some (k, v, t)) ∧
    runOps (K := Nat) (V := Nat) (E := Unit) 1800 3
      [.get_or_load 1 (.ok 10) 0, .get_or_load 2 (.ok 20) 0, .get_or_load 3 (.ok 30) 0,
       .get_or_load 1 (.ok 11) 0, .get_or_load 4 (.ok 40) 0] emptyCache =
      ⟨[(3, 30, 0), (1, 10, 0), (4, 40, 0)], ⟨1, 4, 1, 0⟩⟩ := by
  constructor
  · intro K V E _ ttl max_size k load now s hhit
    obtain ⟨v, t, hl, _, heq⟩ := get_or_load_hit hhit
    refine ⟨v, t, hl, ?_⟩
    rw [heq]
    show (incHits (moveToEnd k s)).entries.getLast? = some (k, v, t)
    unfold incHits moveToEnd
    rw [hl]
    exact List.getLast?_concat _
  · rfl

/-- C6: for the strict-loader caches, a loader error raised during a miss
propagates unchanged, after the miss counter increment and the expired
sweep; no entry is inserted for the requested key, the failed result is
never cached, and a subsequent request for the same key invokes the loader
again. -/
theorem C6_loader_error_not_cached (K V E : Type) [DecidableEq K] (ttl : Int)
    (max_size : Nat) (k : K) (e : E) (now : Int) (s : CacheState K V)
    (hmiss : (fastPhase ttl k now s).2 = none) :
    (get_or_load ttl max_size k (Except.error e) now s).result = .error e ∧
    lookupEntry k (get_or_load ttl max_size k (Except.error e) now s).state.entries = none ∧
    (get_or_load ttl max_size k (Except.error e) now s).state.stats.misses =
      s.stats.misses + 1 ∧
    ∀ (load' : Except E V) (now' : Int),
      (get_or_load ttl max_size k load' now'
        (get_or_load ttl max_size k (Except.error e) now s).state).loaded = true := by
  have main : ∀ s' : CacheState K V, lookupEntry k s'.entries = none →
      s'.stats.misses = s.stats.misses →
      get_or_load ttl max_size k (Except.error e) now s' =
        { result := .error e, state := cleanup_expired ttl now (incMisses s'),
          hit := false, loaded := true } ∧
      lookupEntry k (cleanup_expired ttl now (incMisses s')).entries = none ∧
      (cleanup_expired ttl now (incMisses s')).stats.misses = s.stats.misses + 1 := by
    intro s' hl hm
    refine ⟨?_, ?_, ?_⟩
    · rw [get_or_load_of_none hl, slowPath_error_of_none hl]
    · exact lookupEntry_none_sublist (List.filter_sublist _) hl
    · simp [cleanup_expired, incMisses, hm]
  cases hl : lookupEntry k s.entries with
  | none =>
      obtain ⟨heq, hnone, hmisses⟩ := main s hl rfl
      rw [heq]
      exact ⟨rfl, hnone, hmisses, fun load' now' => get_or_load_loaded_of_none hnone _ _ _ _⟩
  | some x =>
      obtain ⟨v, t⟩ := x
      by_cases hex : is_cache_expired ttl now t
      · have hrw : get_or_load ttl max_size k (Except.error e) now s =
            slowPath ttl max_size k (Except.error e) now
              ⟨removeKey k s.entries, { s.stats with expired := s.stats.expired + 1 }⟩ := by
          simp only [get_or_load, fastPhase, hl, hex, if_true]
        have hl' : lookupEntry k
            (⟨removeKey k s.entries,
              { s.stats with expired := s.stats.expired + 1 }⟩ : CacheState K V).entries = none :=
          lookupEntry_removeKey_self k s.entries
        obtain ⟨heq, hnone, hmisses⟩ := main _ hl' rfl
        rw [get_or_load_of_none hl'] at heq
        rw [hrw, heq]
        exact ⟨rfl, hnone, hmisses, fun load' now' => get_or_load_loaded_of_none hnone _ _ _ _⟩
      · exfalso
        simp only [fastPhase, hl, hex, if_false, Bool.false_eq_true] at hmiss
        exact Option.noConfusion hmiss

theorem lookupEntry_insertEntry_self_of_none {k : K} {s : CacheState K V} {v : V} {t : Int}
    (h : lookupEntry k s.entries = none) :
    lookupEntry k (insertEntry k v t s).entries = some (v, t) := by
  rw [insertEntry_entries_of_none h, lookupEntry_append_of_none h]
  simp [lookupEntry]

theorem evict_lru_entries_sublist (s : CacheState K V) :
    List.Sublist (evict_lru s).entries s.entries := by
  obtain ⟨entries, stats⟩ := s
  cases entries with
  | nil => exact List.Sublist.refl _
  | cons e rest => exact List.Sublist.cons e (List.Sublist.refl rest)

theorem slowPath_ok_of_none {k : K} {s : CacheState K V} {v : V}
    (h : lookupEntry k s.entries = none) (ttl : Int) (max_size : Nat) (now : Int) :
    (slowPath (E := E) ttl max_size k (Except.ok v) now s).loaded = true ∧
    lookupEntry k (slowPath (E := E) ttl max_size k (Except.ok v) now s).state.entries =
      some (v, now) := by
  have hf : freshLookup ttl k now s = none := by
    unfold freshLookup
    rw [h]
  unfold slowPath
  rw [hf]
  refine ⟨rfl, ?_⟩
  have hclean : lookupEntry k (cleanup_expired ttl now (incMisses s)).entries = none :=
    lookupEntry_none_sublist (List.filter_sublist _) h
  by_cases hfull : max_size ≤ (cleanup_expired ttl now (incMisses s)).entries.length
  · simp only [hfull, if_true]
    exact lookupEntry_insertEntry_self_of_none
      (lookupEntry_none_sublist (evict_lru_entries_sublist _) hclean)
  · simp only [hfull, if_false]
    exact lookupEntry_insertEntry_self_of_none hclean

theorem slowPath_of_fresh_now {k : K} {s : CacheState K V} {v : V} {ttl now : Int}
    (h : lookupEntry k s.entries = some (v, now)) (hfresh : is_cache_expired ttl now now = false)
    (max_size : Nat) (load : Except E V) :
    slowPath ttl max_size k load now s =
      { result := .ok v, state := incHits (moveToEnd k s), hit := true, loaded := false } := by
  have hf : freshLookup ttl k now s = some (v, now) := by
    unfold freshLookup
    rw [h]
    simp [hfresh]
  unfold slowPath
  rw [hf]

/-- The race invariant: either nothing has been loaded and the key is still
absent, or exactly one load has happened and the key maps to a value
inserted at `now`. -/
theorem conc_invariant {ttl : Int} {max_size : Nat} {k : K} {vA vB : V} {now : Int}
    (httl : 0 ≤ ttl) {s : ConcState K V}
    (hr : ConcReachable ttl max_size k vA vB now s) :
    (s.loadsA + s.loadsB = 0 ∧ lookupEntry k s.cache.entries = none) ∨
    (s.loadsA + s.loadsB = 1 ∧ ∃ v, lookupEntry k s.cache.entries = some (v, now)) := by
  have hfresh : is_cache_expired ttl now now = false := by
    simp only [is_cache_expired, decide_eq_false_iff_not, not_lt]
    omega
  induction hr with
  | init => exact Or.inl ⟨rfl, rfl⟩
  | step hr' hstep ih =>
      cases hstep with
      | fastA hpc =>
          rename_i s1
          rcases ih with ⟨h0, hn⟩ | ⟨h1, v, hv⟩
          · have hc : (threadFast ttl k now s1.cache).1 = s1.cache := by
              unfold threadFast fastPhase
              rw [hn]
            exact Or.inl ⟨h0, by simpa [hc] using hn⟩
          · have hc : (threadFast ttl k now s1.cache).1 = incHits (moveToEnd k s1.cache) := by
              unfold threadFast fastPhase
              rw [hv]
              simp [hfresh]
            refine Or.inr ⟨h1, v, ?_⟩
            simp only [hc]
            exact lookupEntry_moveToEnd_self hv
      | fastB hpc =>
          rename_i s1
          rcases ih with ⟨h0, hn⟩ | ⟨h1, v, hv⟩
          · have hc : (threadFast ttl k now s1.cache).1 = s1.cache := by
              unfold threadFast fastPhase
              rw [hn]
            exact Or.inl ⟨h0, by simpa [hc] using hn⟩
          · have hc : (threadFast ttl k now s1.cache).1 = incHits (moveToEnd k s1.cache) := by
              unfold threadFast fastPhase
              rw [hv]
              simp [hfresh]
            refine Or.inr ⟨h1, v, ?_⟩
            simp only [hc]
            exact lookupEntry_moveToEnd_self hv
      | critA hpc =>
          rename_i s1
          rcases ih with ⟨h0, hn⟩ | ⟨h1, v, hv⟩
          · obtain ⟨hld, hlook⟩ := slowPath_ok_of_none (E := Unit) hn ttl max_size now
            refine Or.inr ⟨?_, vA, ?_⟩
            · have h2 : (threadCrit ttl max_size k vA now s1.cache).2 = true := by
                simpa [threadCrit] using hld
              rw [if_pos h2]
              show s1.loadsA + 1 + s1.loadsB = 1
              omega
            · simpa [threadCrit] using hlook
          · have hc := slowPath_of_fresh_now (E := Unit) hv hfresh max_size (Except.ok vA)
            refine Or.inr ⟨?_, v, ?_⟩
            · simp [threadCrit, hc]
              omega
            · simp only [threadCrit, hc]
              exact lookupEntry_moveToEnd_self hv
      | critB hpc =>
          rename_i s1
          rcases ih with ⟨h0, hn⟩ | ⟨h1, v, hv⟩
          · obtain ⟨hld, hlook⟩ := slowPath_ok_of_none (E := Unit) hn ttl max_size now
            refine Or.inr ⟨?_, vB, ?_⟩
            · have h2 : (threadCrit ttl max_size k vB now s1.cache).2 = true := by
                simpa [threadCrit] using hld
              rw [if_pos h2]
              show s1.loadsA + (s1.loadsB + 1) = 1
              omega
            · simpa [threadCrit] using hlook
          · have hc := slowPath_of_fresh_now (E := Unit) hv hfresh max_size (Except.ok vB)
            refine Or.inr ⟨?_, v, ?_⟩
            · simp [threadCrit, hc]
              omega
            · simp only [threadCrit, hc]
              exact lookupEntry_moveToEnd_self hv

/-- C3: in every interleaving of two concurrent lookups of the same key
during a single miss window, the loader is invoked at most once: the winner
constructs the value in its locked region and the loser observes the
winner's cached entry through the double-check (or already through its fast
check). -/
theorem C3_at_most_one_construction (K V : Type) [DecidableEq K] (ttl : Int)
    (max_size : Nat) (k : K) (vA vB : V) (now : Int) (s : ConcState K V)
    (httl : 0 ≤ ttl) (hr : ConcReachable ttl max_size k vA vB now s) :
    s.loadsA + s.loadsB ≤ 1 := by
  rcases conc_invariant httl hr with ⟨h, _⟩ | ⟨h, _⟩ <;> omega

/-- Witness for C3 at a concrete instance of the race (key "k", ttl 1800,
max size 100, the initial state of the window). -/
theorem C3_at_most_one_construction_witness :
    (⟨emptyCache, .start, .start, 0, 0⟩ : ConcState String Nat).loadsA +
      (⟨emptyCache, .start, .start, 0, 0⟩ : ConcState String Nat).loadsB ≤ 1 :=
  C3_at_most_one_construction String Nat 1800 100 "k" 1 2 0 _ (by decide) ConcReachable.init

theorem colon_join_inj : ∀ (a a' r r' : List Char), ':' ∉ a → ':' ∉ a' →
    a ++ ':' :: r = a' ++ ':' :: r' → a = a' ∧ r = r' := by
  intro a
  induction a with
  | nil =>
      intro a' r r' ha ha' h
      cases a' with
      | nil => simpa using h
      | cons c tl =>
          exfalso
          simp only [List.nil_append, List.cons_append, List.cons.injEq] at h
          apply ha'
          rw [h.1]
          exact List.mem_cons_self c tl
  | cons c tl ih =>
      intro a' r r' ha ha' h
      cases a' with
      | nil =>
          exfalso
          simp only [List.cons_append, List.nil_append, List.cons.injEq] at h
          apply ha
          rw [← h.1]
          exact List.mem_cons_self c tl
      | cons c' tl' =>
          simp only [List.cons_append, List.cons.injEq] at h
          obtain ⟨hc, hrest⟩ := h
          have htl : ':' ∉ tl := fun hm => ha (List.mem_cons_of_mem c hm)
          have htl' : ':' ∉ tl' := fun hm => ha' (List.mem_cons_of_mem c' hm)
          obtain ⟨he, hr⟩ := ih tl' r r' htl htl' hrest
          exact ⟨by rw [hc, he], hr⟩

theorem modelKeyString_data (t p m : String) :
    (modelKeyString t p m).data = t.data ++ ':' :: (p.data ++ ':' :: m.data) := by
  show (((t.data ++ [':']) ++ p.data) ++ [':']) ++ m.data =
    t.data ++ ':' :: (p.data ++ ':' :: m.data)
  simp [List.append_assoc]

theorem processorKeyString_data (d v : String) :
    (processorKeyString d v).data = d.data ++ ':' :: v.data := by
  show (d.data ++ [':']) ++ v.data = d.data ++ ':' :: v.data
  simp [List.append_assoc]

/-- C4 counterexample: the key derivation joins fields with ':' before
hashing, so two different tuples — differing in their first two fields,
with an embedded ':' — produce the same key string "a:b:c:d" and hence the
same md5 key, refuting distinctness for inputs with embedded ':'. -/
theorem C4_embedded_colon_collision :
    Vector.generate_embedding_cache_key "a:b" "c" "d" =
      Vector.generate_embedding_cache_key "a" "b:c" "d" ∧
    (("a:b", "c", "d") : String × String × String) ≠ ("a", "b:c", "d") := by
  constructor
  · show MD5.md5Hex (modelKeyString "a:b" "c" "d") = MD5.md5Hex (modelKeyString "a" "b:c" "d")
    exact congrArg MD5.md5Hex (by decide)
  · decide

/-- C4 amended: key derivation is injective on the pre-digest key strings
for tuples whose joined fields are ':'-free (the last field may contain
':'), for the three-field model keys and the two-field processor keys
alike; the md5 digest then preserves distinctness only up to hash
collisions, and inputs with embedded ':' in a non-final field are accepted
but can collide (see the counterexample). -/
theorem C4_key_distinct_amended :
    (∀ t1 p1 m1 t2 p2 m2 : String,
      ':' ∉ t1.data → ':' ∉ p1.data → ':' ∉ t2.data → ':' ∉ p2.data →
      (t1, p1, m1) ≠ (t2, p2, m2) →
      modelKeyString t1 p1 m1 ≠ modelKeyString t2 p2 m2) ∧
    (∀ d1 v1 d2 v2 : String, ':' ∉ d1.data → ':' ∉ d2.data →
      (d1, v1) ≠ (d2, v2) →
      processorKeyString d1 v1 ≠ processorKeyString d2 v2) := by
  constructor
  · intro t1 p1 m1 t2 p2 m2 ht1 hp1 ht2 hp2 hne heq
    have hd := congrArg String.data heq
    rw [modelKeyString_data, modelKeyString_data] at hd
    obtain ⟨hteq, hrest⟩ := colon_join_inj t1.data t2.data _ _ ht1 ht2 hd
    obtain ⟨hpeq, hmeq⟩ := colon_join_inj p1.data p2.data _ _ hp1 hp2 hrest
    exact hne (by rw [String.ext hteq, String.ext hpeq, String.ext hmeq])
  · intro d1 v1 d2 v2 hd1 hd2 hne heq
    have hd := congrArg String.data heq
    rw [processorKeyString_data, processorKeyString_data] at hd
    obtain ⟨hdeq, hveq⟩ := colon_join_inj d1.data d2.data _ _ hd1 hd2 hd
    exact hne (by rw [String.ext hdeq, String.ext hveq])

theorem get_rerank_model_instance_unauthorized {V : Type} (tenant_id : String)
    (cfg : DataPostProcessor.RerankingModelConfig) (now : Int) (s : CacheState String V)
    (hp : DataPostProcessor.falsyStr cfg.reranking_provider_name = false)
    (hm : DataPostProcessor.falsyStr cfg.reranking_model_name = false)
    (hl : lookupEntry (DataPostProcessor.generate_rerank_model_cache_key tenant_id
      (cfg.reranking_provider_name.getD "") (cfg.reranking_model_name.getD ""))
      s.entries = none) :
    DataPostProcessor.get_rerank_model_instance tenant_id (some cfg)
      (Except.error .unauthorized) now s =
    (.ok none, cleanup_expired DataPostProcessor.RERANK_MODEL_CACHE_TTL_SECONDS now
      (incMisses s)) := by
  unfold DataPostProcessor.get_rerank_model_instance
  simp only [hp, hm, Bool.or_self, if_false, Bool.false_eq_true]
  rw [get_or_load_of_none hl, slowPath_error_of_none hl]

/-- C7: with reranking mode `reranking_model`, a raised `Unauthorized`
loader error is caught: the runner resolves to `None`, nothing is cached
for the key (which stays absent), and `invoke` with no rerank runner
returns the documents unchanged, subject only to the reorder step when
reorder is enabled; the same `None`-runner passthrough holds when the
reranking model dict is missing, or its provider or model name is missing
or empty. -/
theorem C7_unauthorized_passthrough :
    (∀ (V W : Type) (tenant_id : String) (cfg : DataPostProcessor.RerankingModelConfig)
      (weights : Option W) (now : Int) (s : CacheState String V),
      DataPostProcessor.falsyStr cfg.reranking_provider_name = false →
      DataPostProcessor.falsyStr cfg.reranking_model_name = false →
      lookupEntry (DataPostProcessor.generate_rerank_model_cache_key tenant_id
        (cfg.reranking_provider_name.getD "") (cfg.reranking_model_name.getD ""))
        s.entries = none →
      (DataPostProcessor.get_rerank_runner .reranking_model tenant_id (some cfg) weights
          (Except.error .unauthorized) now s).1 = .ok none ∧
      lookupEntry (DataPostProcessor.generate_rerank_model_cache_key tenant_id
        (cfg.reranking_provider_name.getD "") (cfg.reranking_model_name.getD ""))
        (DataPostProcessor.get_rerank_runner .reranking_model tenant_id (some cfg) weights
          (Except.error .unauthorized) now s).2.entries = none) ∧
    (∀ (V W : Type) (tenant_id : String) (weights : Option W)
      (load : Except DataPostProcessor.LoadError V) (now : Int) (s : CacheState String V),
      DataPostProcessor.get_rerank_runner .reranking_model tenant_id none weights
        load now s = (.ok none, s)) ∧
    (∀ (V W : Type) (tenant_id : String) (cfg : DataPostProcessor.RerankingModelConfig)
      (weights : Option W) (load : Except DataPostProcessor.LoadError V) (now : Int)
      (s : CacheState String V),
      (DataPostProcessor.falsyStr cfg.reranking_provider_name = true ∨
        DataPostProcessor.falsyStr cfg.reranking_model_name = true) →
      DataPostProcessor.get_rerank_runner .reranking_model tenant_id (some cfg) weights
        load now s = (.ok none, s)) ∧
    (∀ (V W Doc : Type) (runRunner : DataPostProcessor.RerankRunner V W → List Doc → List Doc)
      (docs : List Doc),
      DataPostProcessor.invoke none runRunner none docs = docs ∧
      ∀ f : List Doc → List Doc, DataPostProcessor.invoke none runRunner (some f) docs = f docs) := by
  refine ⟨?_, ?_, ?_, ?_⟩
  · intro V W tenant_id cfg weights now s hp hm hl
    have hinst := get_rerank_model_instance_unauthorized tenant_id cfg now s hp hm hl
    have hrun : DataPostProcessor.get_rerank_runner .reranking_model tenant_id (some cfg)
        weights (Except.error .unauthorized) now s =
        (.ok none, cleanup_expired DataPostProcessor.RERANK_MODEL_CACHE_TTL_SECONDS now
          (incMisses s)) := by
      unfold DataPostProcessor.get_rerank_runner
      rw [hinst]
    rw [hrun]
    exact ⟨rfl, lookupEntry_none_sublist (List.filter_sublist _) hl⟩
  · intro V W tenant_id weights load now s
    unfold DataPostProcessor.get_rerank_runner DataPostProcessor.get_rerank_model_instance
    rfl
  · intro V W tenant_id cfg weights load now s hfalsy
    have hcond : (DataPostProcessor.falsyStr cfg.reranking_provider_name ||
        DataPostProcessor.falsyStr cfg.reranking_model_name) = true := by
      rcases hfalsy with h | h <;> simp [h]
    unfold DataPostProcessor.get_rerank_runner DataPostProcessor.get_rerank_model_instance
    simp [hcond]
  · intro V W Doc runRunner docs
    exact ⟨rfl, fun f => rfl⟩

/-- C8: the code reads `time.time()` — the wall clock, not a monotonic
clock — in every `_is_cache_expired` and in the expired sweeps, so the
expiry decision is not invariant under wall-clock adjustments: with the
1800 s ttl, an entry only 10 s old (monotonic) is judged expired after a
+3600 s wall-clock step, and an entry 2000 s old is judged fresh after a
−3600 s step, while without an adjustment the decisions are the opposite. -/
theorem C8_wall_clock_divergence :
    wallClockExpiryDecision Vector.CACHE_TTL_SECONDS 0 10 3600 = true ∧
    wallClockExpiryDecision Vector.CACHE_TTL_SECONDS 0 10 0 = false ∧
    wallClockExpiryDecision Vector.CACHE_TTL_SECONDS 0 2000 (-3600) = false ∧
    wallClockExpiryDecision Vector.CACHE_TTL_SECONDS 0 2000 0 = true := by
  decide

/-- Witness for C6 at a concrete input: an empty cache, key 1, a raised
loader error. -/
theorem C6_loader_error_not_cached_witness :
    (get_or_load 1800 100 1 (Except.error ()) 0
      (emptyCache : CacheState Nat Nat)).result = .error () ∧
    lookupEntry 1 (get_or_load 1800 100 1 (Except.error ()) 0
      (emptyCache : CacheState Nat Nat)).state.entries = none ∧
    (get_or_load 1800 100 1 (Except.error ()) 0
      (emptyCache : CacheState Nat Nat)).state.stats.misses =
      (emptyCache : CacheState Nat Nat).stats.misses + 1 ∧
    ∀ (load' : Except Unit Nat) (now' : Int),
      (get_or_load 1800 100 1 load' now'
        (get_or_load 1800 100 1 (Except.error ()) 0
          (emptyCache : CacheState Nat Nat)).state).loaded = true :=
  C6_loader_error_not_cached Nat Nat Unit 1800 100 1 () 0 emptyCache (by decide)

/-! Lemmas about metadata dictionaries and the weighted-rerank pipeline. -/

theorem metaGet_map_replace (key : String) (v : MetaVal) :
    ∀ m : Metadata, (metaGet key m).isSome = true →
      metaGet key (List.map (fun kv => if kv.1 = key then (key, v) else kv) m) = some v := by
  intro m
  induction m with
  | nil => simp [metaGet]
  | cons kv rest ih =>
      obtain ⟨k0, v0⟩ := kv
      intro h
      by_cases hk : k0 = key
      · show metaGet key ((if (k0, v0).1 = key then (key, v) else (k0, v0)) ::
          List.map (fun kv => if kv.1 = key then (key, v) else kv) rest) = some v
        rw [if_pos hk]
        show (if key = key then some v else _) = some v
        rw [if_pos rfl]
      · have htail : (metaGet key rest).isSome = true := by
          have heq : metaGet key ((k0, v0) :: rest) = metaGet key rest := by
            show (if k0 = key then some v0 else metaGet key rest) = _
            rw [if_neg hk]
          rwa [heq] at h
        show metaGet key ((if (k0, v0).1 = key then (key, v) else (k0, v0)) ::
          List.map (fun kv => if kv.1 = key then (key, v) else kv) rest) = some v
        rw [if_neg hk]
        show (if k0 = key then some v0 else _) = some v
        rw [if_neg hk]
        exact ih htail

theorem metaGet_append_single (key : String) (v : MetaVal) :
    ∀ m : Metadata, metaGet key m = none →
      metaGet key (m ++ [(key, v)]) = some v := by
  intro m
  induction m with
  | nil =>
      intro _
      show (if key = key then some v else metaGet key []) = some v
      rw [if_pos rfl]
  | cons kv rest ih =>
      obtain ⟨k0, v0⟩ := kv
      intro h
      by_cases hk : k0 = key
      · exfalso
        have : metaGet key ((k0, v0) :: rest) = some v0 := by
          show (if k0 = key then some v0 else metaGet key rest) = some v0
          rw [if_pos hk]
        rw [this] at h
        exact Option.noConfusion h
      · have htail : metaGet key rest = none := by
          have heq : metaGet key ((k0, v0) :: rest) = metaGet key rest := by
            show (if k0 = key then some v0 else metaGet key rest) = _
            rw [if_neg hk]
          rwa [heq] at h
        show (if k0 = key then some v0 else metaGet key (rest ++ [(key, v)])) = some v
        rw [if_neg hk]
        exact ih htail

theorem metaGet_metaSet_self (key : String) (v : MetaVal) (m : Metadata) :
    metaGet key (metaSet key v m) = some v := by
  unfold metaSet
  by_cases h : (metaGet key m).isSome
  · rw [if_pos h]
    exact metaGet_map_replace key v m h
  · rw [if_neg h]
    refine metaGet_append_single key v m ?_
    cases hm : metaGet key m
    · rfl
    · rw [hm] at h
      simp at h

theorem metaSet_ne_nil (key : String) (v : MetaVal) (m : Metadata) :
    metaSet key v m ≠ [] := by
  unfold metaSet
  by_cases h : (metaGet key m).isSome
  · rw [if_pos h]
    cases m with
    | nil => simp [metaGet] at h
    | cons kv rest => simp
  · rw [if_neg h]
    simp

theorem sortKey_write (d : Document) (q : ℚ) (m : Metadata) :
    WeightRerankRunner.sortKey
      { d with metadata := some (metaSet "score" (.num q) m) } = q := by
  unfold WeightRerankRunner.sortKey
  simp only
  rw [if_neg (by simpa [List.isEmpty_iff] using metaSet_ne_nil "score" (.num q) m)]
  rw [metaGet_metaSet_self]
  rfl

theorem insertDesc_perm (a : Document) (l : List Document) :
    List.Perm (WeightRerankRunner.insertDesc a l) (a :: l) := by
  induction l with
  | nil => exact List.Perm.refl _
  | cons b bs ih =>
      unfold WeightRerankRunner.insertDesc
      by_cases h : WeightRerankRunner.sortKey b ≤ WeightRerankRunner.sortKey a
      · rw [if_pos h]
      · rw [if_neg h]
        exact (List.Perm.cons b ih).trans (List.Perm.swap a b bs)

theorem sortDesc_perm (l : List Document) :
    List.Perm (WeightRerankRunner.sortDesc l) l := by
  induction l with
  | nil => exact List.Perm.refl _
  | cons x xs ih =>
      unfold WeightRerankRunner.sortDesc
      exact (insertDesc_perm x (WeightRerankRunner.sortDesc xs)).trans (List.Perm.cons x ih)

theorem insertDesc_sorted {l : List Document}
    (hl : l.Sorted (fun a b => WeightRerankRunner.sortKey b ≤ WeightRerankRunner.sortKey a))
    (a : Document) :
    (WeightRerankRunner.insertDesc a l).Sorted
      (fun a b => WeightRerankRunner.sortKey b ≤ WeightRerankRunner.sortKey a) := by
  induction l with
  | nil => simp [WeightRerankRunner.insertDesc]
  | cons b bs ih =>
      rw [List.sorted_cons] at hl
      obtain ⟨hb, hbs⟩ := hl
      unfold WeightRerankRunner.insertDesc
      by_cases h : WeightRerankRunner.sortKey b ≤ WeightRerankRunner.sortKey a
      · rw [if_pos h]
        rw [List.sorted_cons]
        refine ⟨?_, ?_⟩
        · intro x hx
          rcases List.mem_cons.mp hx with hxb | hxbs
          · rw [hxb]
            exact h
          · exact le_trans (hb x hxbs) h
        · rw [List.sorted_cons]
          exact ⟨hb, hbs⟩
      · rw [if_neg h]
        rw [List.sorted_cons]
        refine ⟨?_, ih hbs⟩
        intro x hx
        have hx' := (insertDesc_perm a bs).mem_iff.mp hx
        rcases List.mem_cons.mp hx' with hxa | hxbs
        · rw [hxa]
          exact le_of_not_le h
        · exact hb x hxbs

theorem sortDesc_sorted (l : List Document) :
    (WeightRerankRunner.sortDesc l).Sorted
      (fun a b => WeightRerankRunner.sortKey b ≤ WeightRerankRunner.sortKey a) := by
  induction l with
  | nil => simp [WeightRerankRunner.sortDesc]
  | cons x xs ih =>
      unfold WeightRerankRunner.sortDesc
      exact insertDesc_sorted ih x

theorem fuseLoop_mem {vw kw : ℚ} {thr : Option ℚ} :
    ∀ {ds : List Document} {qs qvs : List ℚ} {d : Document},
      d ∈ WeightRerankRunner.fuseLoop vw kw thr ds qs qvs →
      ∃ (i : Nat) (h1 : i < ds.length) (h2 : i < qs.length) (h3 : i < qvs.length)
        (m : Metadata),
        (ds.get ⟨i, h1⟩).metadata = some m ∧
        d = { ds.get ⟨i, h1⟩ with metadata := some (metaSet "score"
          (.num (vw * qvs.get ⟨i, h3⟩ + kw * qs.get ⟨i, h2⟩)) m) } ∧
        (WeightRerankRunner.truthyThreshold thr = true →
          ¬ (vw * qvs.get ⟨i, h3⟩ + kw * qs.get ⟨i, h2⟩ < thr.getD 0)) := by
  intro ds
  induction ds with
  | nil =>
      intro qs qvs d h
      simp [WeightRerankRunner.fuseLoop] at h
  | cons d0 dtl ih =>
      intro qs qvs d h
      cases qs with
      | nil => simp [WeightRerankRunner.fuseLoop] at h
      | cons a atl =>
          cases qvs with
          | nil => simp [WeightRerankRunner.fuseLoop] at h
          | cons b btl =>
              rw [WeightRerankRunner.fuseLoop] at h
              by_cases hskip : (WeightRerankRunner.truthyThreshold thr &&
                  decide (vw * b + kw * a < thr.getD 0)) = true
              · rw [if_pos hskip] at h
                obtain ⟨i, h1, h2, h3, m, hm, hd, hthr⟩ := ih h
                exact ⟨i + 1, Nat.succ_lt_succ h1, Nat.succ_lt_succ h2,
                  Nat.succ_lt_succ h3, m, hm, hd, hthr⟩
              · rw [if_neg hskip] at h
                cases hmeta : d0.metadata with
                | some m0 =>
                    rw [hmeta] at h
                    rcases List.mem_cons.mp h with hd | hd
                    · refine ⟨0, Nat.succ_pos _, Nat.succ_pos _, Nat.succ_pos _, m0,
                        hmeta, hd, ?_⟩
                      intro ht hlt
                      apply hskip
                      rw [ht]
                      simp only [Bool.true_and]
                      exact decide_eq_true hlt
                    · obtain ⟨i, h1, h2, h3, m, hm, hd', hthr⟩ := ih hd
                      exact ⟨i + 1, Nat.succ_lt_succ h1, Nat.succ_lt_succ h2,
                        Nat.succ_lt_succ h3, m, hm, hd', hthr⟩
                | none =>
                    rw [hmeta] at h
                    obtain ⟨i, h1, h2, h3, m, hm, hd', hthr⟩ := ih h
                    exact ⟨i + 1, Nat.succ_lt_succ h1, Nat.succ_lt_succ h2,
                      Nat.succ_lt_succ h3, m, hm, hd', hthr⟩

theorem mem_run {extract : String → List String} {lnQ sqrtQ : ℚ → ℚ}
    {embed : String → List ℚ} {weights : Weights} {query : String}
    {documents : List Document} {thr : Option ℚ} {topn : Option Nat} {d : Document}
    (h : d ∈ WeightRerankRunner.run extract lnQ sqrtQ embed weights query documents thr topn) :
    d ∈ WeightRerankRunner.fuseLoop weights.vector_setting.vector_weight
      weights.keyword_setting.keyword_weight thr
      (WeightRerankRunner.calculate_keyword_score extract lnQ sqrtQ query documents).1
      (WeightRerankRunner.calculate_keyword_score extract lnQ sqrtQ query documents).2
      (WeightRerankRunner.calculate_cosine sqrtQ embed query
        (WeightRerankRunner.calculate_keyword_score extract lnQ sqrtQ query documents).1) := by
  simp only [WeightRerankRunner.run] at h
  split at h
  · exact (sortDesc_perm _).subset ((List.take_sublist _ _).subset h)
  · exact (sortDesc_perm _).subset h

theorem filterMap_keywords_of_all_some {extract : String → List String} :
    ∀ {documents : List Document}, (∀ d ∈ documents, d.metadata.isSome = true) →
      documents.filterMap
        (fun d => if d.metadata.isSome then some (extract d.page_content) else none) =
      documents.map (fun d => extract d.page_content) := by
  intro documents
  induction documents with
  | nil => intro _; rfl
  | cons d0 rest ih =>
      intro h
      have h0 : d0.metadata.isSome = true := h d0 (List.mem_cons_self _ _)
      rw [List.filterMap_cons, List.map_cons]
      simp only [h0, if_true]
      rw [ih (fun d hd => h d (List.mem_cons_of_mem _ hd))]

/-- C9 amended, with `score_i` abbreviating
`vector_weight * query_vector_scores_i + keyword_weight * query_scores_i`
over the zipped lists the code computes: every returned document is one of
the zipped documents, had non-None metadata, and carries `score_i` in
`metadata["score"]`; when the given `score_threshold` is nonzero no
document with `score_i` strictly below it is returned (a threshold of 0 is
falsy and filters nothing — see the counterexample); the result is sorted
descending by the written score; when the given `top_n` is nonzero the
result is truncated to at most `top_n` documents (a `top_n` of 0 is falsy
and truncates nothing); and when every input document has metadata the
keyword-score list aligns positionally, `query_scores_i` being document
i's own TF-IDF cosine against the query (a document with `None` metadata
shifts the keyword scores of the documents after it — see the
counterexample). -/
theorem C9_weighted_run_amended :
    ∀ (extract : String → List String) (lnQ sqrtQ : ℚ → ℚ) (embed : String → List ℚ)
      (weights : Weights) (query : String) (documents : List Document)
      (thr : Option ℚ) (topn : Option Nat),
      (∀ d ∈ WeightRerankRunner.run extract lnQ sqrtQ embed weights query documents thr topn,
        ∃ (i : Nat)
          (h1 : i < (WeightRerankRunner.calculate_keyword_score extract lnQ sqrtQ query
            documents).1.length)
          (h2 : i < (WeightRerankRunner.calculate_keyword_score extract lnQ sqrtQ query
            documents).2.length)
          (h3 : i < (WeightRerankRunner.calculate_cosine sqrtQ embed query
            (WeightRerankRunner.calculate_keyword_score extract lnQ sqrtQ query
              documents).1).length)
          (m : Metadata),
          ((WeightRerankRunner.calculate_keyword_score extract lnQ sqrtQ query
            documents).1.get ⟨i, h1⟩).metadata = some m ∧
          d = { (WeightRerankRunner.calculate_keyword_score extract lnQ sqrtQ query
              documents).1.get ⟨i, h1⟩ with
            metadata := some (metaSet "score" (.num
              (weights.vector_setting.vector_weight *
                (WeightRerankRunner.calculate_cosine sqrtQ embed query
                  (WeightRerankRunner.calculate_keyword_score extract lnQ sqrtQ query
                    documents).1).get ⟨i, h3⟩ +
                weights.keyword_setting.keyword_weight *
                (WeightRerankRunner.calculate_keyword_score extract lnQ sqrtQ query
                  documents).2.get ⟨i, h2⟩)) m) }) ∧
      (∀ t : ℚ, thr = some t → t ≠ 0 →
        ∀ d ∈ WeightRerankRunner.run extract lnQ sqrtQ embed weights query documents thr topn,
          t ≤ WeightRerankRunner.sortKey d) ∧
      (WeightRerankRunner.run extract lnQ sqrtQ embed weights query documents thr
        topn).Sorted
        (fun a b => WeightRerankRunner.sortKey b ≤ WeightRerankRunner.sortKey a) ∧
      (∀ n : Nat, topn = some n → n ≠ 0 →
        (WeightRerankRunner.run extract lnQ sqrtQ embed weights query documents thr
          topn).length ≤ n) ∧
      ((∀ d ∈ documents, d.metadata.isSome = true) →
        (WeightRerankRunner.calculate_keyword_score extract lnQ sqrtQ query documents).2 =
          documents.map (fun d0 => WeightRerankRunner.cosine_similarity sqrtQ
            (WeightRerankRunner.tfidfVec lnQ documents.length
              (documents.map (fun d1 => extract d1.page_content)) (extract query))
            (WeightRerankRunner.tfidfVec lnQ documents.length
              (documents.map (fun d1 => extract d1.page_content))
              (extract d0.page_content)))) := by
  intro extract lnQ sqrtQ embed weights query documents thr topn
  refine ⟨?_, ?_, ?_, ?_, ?_⟩
  · intro d hd
    obtain ⟨i, h1, h2, h3, m, hm, hdq, _⟩ := fuseLoop_mem (mem_run hd)
    exact ⟨i, h1, h2, h3, m, hm, hdq⟩
  · intro t ht hne d hd
    subst ht
    obtain ⟨i, h1, h2, h3, m, hm, hdq, hthr⟩ := fuseLoop_mem (mem_run hd)
    have htr : WeightRerankRunner.truthyThreshold (some t) = true := by
      simp [WeightRerankRunner.truthyThreshold, hne]
    rw [hdq, sortKey_write]
    exact le_of_not_lt (hthr htr)
  · unfold WeightRerankRunner.run
    split
    · exact (sortDesc_sorted _).sublist (List.take_sublist _ _)
    · exact sortDesc_sorted _
  · intro n hn hne
    subst hn
    unfold WeightRerankRunner.run
    rw [if_pos (by simp [WeightRerankRunner.truthyTopN, hne])]
    simpa using List.length_take_le n _
  · intro hmeta
    show (WeightRerankRunner.calculate_keyword_score extract lnQ sqrtQ query documents).2 = _
    unfold WeightRerankRunner.calculate_keyword_score
    simp only
    rw [filterMap_keywords_of_all_some hmeta, List.map_map, List.map_map]
    rfl

/-- C9 counterexample: (i) with `score_threshold = 0` provided, a document
whose fused score is −1 < 0 is kept, not dropped (0 is falsy); (ii) with
`top_n = 0` provided, nothing is truncated; (iii) with a `None`-metadata
document first in the list, the second document is returned carrying the
third document's keyword score 1/9 instead of its own fused score
0·cos_vec + 1·0 = 0 (the keyword-score list is built only from documents
with metadata and then zipped positionally against all documents). -/
theorem C9_truthiness_counterexample :
    WeightRerankRunner.run (fun _ => []) id id (fun _ => [1])
      ⟨⟨1, "p", "m"⟩, ⟨0⟩⟩ "q" [⟨"a", some [("score", .num (-1))], some [1]⟩] (some 0) none =
      [⟨"a", some [("score", .num (-1)), ("keywords", .keywords [])], some [1]⟩] ∧
    ((-1 : ℚ) < 0) ∧
    WeightRerankRunner.run (fun _ => []) id id (fun _ => [1])
      ⟨⟨1, "p", "m"⟩, ⟨0⟩⟩ "q" [⟨"a", some [("score", .num (-1))], some [1]⟩] none (some 0) =
      [⟨"a", some [("score", .num (-1)), ("keywords", .keywords [])], some [1]⟩] ∧
    (WeightRerankRunner.calculate_keyword_score (fun s => if s = "x" then ["k"] else [])
      id id "x" [⟨"n", none, some [1]⟩, ⟨"q", some [("score", .num 0)], some [1]⟩,
        ⟨"x", some [], some [1]⟩]).2 = [0, 1/9] ∧
    WeightRerankRunner.run (fun s => if s = "x" then ["k"] else []) id id (fun _ => [1])
      ⟨⟨0, "p", "m"⟩, ⟨1⟩⟩ "x" [⟨"n", none, some [1]⟩, ⟨"q", some [("score", .num 0)], some [1]⟩,
        ⟨"x", some [], some [1]⟩] none none =
      [⟨"q", some [("score", .num (1/9)), ("keywords", .keywords [])], some [1]⟩] ∧
    ((1 : ℚ)/9 ≠ 0 * 0 + 1 * 0) := by
  refine ⟨?_, by norm_num, ?_, ?_, ?_, by norm_num⟩
  · simp [WeightRerankRunner.run, WeightRerankRunner.calculate_keyword_score,
      WeightRerankRunner.annotateKeywords, WeightRerankRunner.calculate_cosine,
      WeightRerankRunner.fuseLoop, WeightRerankRunner.sortDesc, WeightRerankRunner.insertDesc,
      WeightRerankRunner.truthyThreshold, WeightRerankRunner.truthyTopN,
      WeightRerankRunner.tfidfVec, WeightRerankRunner.counterList, WeightRerankRunner.dedup,
      WeightRerankRunner.countOcc, WeightRerankRunner.idfOf, WeightRerankRunner.cosine_similarity,
      WeightRerankRunner.qGet, WeightRerankRunner.npCosine, WeightRerankRunner.dotQ,
      WeightRerankRunner.normQ, metaSet, metaGet, MetaVal.asNum, WeightRerankRunner.sortKey]
  · simp [WeightRerankRunner.run, WeightRerankRunner.calculate_keyword_score,
      WeightRerankRunner.annotateKeywords, WeightRerankRunner.calculate_cosine,
      WeightRerankRunner.fuseLoop, WeightRerankRunner.sortDesc, WeightRerankRunner.insertDesc,
      WeightRerankRunner.truthyThreshold, WeightRerankRunner.truthyTopN,
      WeightRerankRunner.tfidfVec, WeightRerankRunner.counterList, WeightRerankRunner.dedup,
      WeightRerankRunner.countOcc, WeightRerankRunner.idfOf, WeightRerankRunner.cosine_similarity,
      WeightRerankRunner.qGet, WeightRerankRunner.npCosine, WeightRerankRunner.dotQ,
      WeightRerankRunner.normQ, metaSet, metaGet, MetaVal.asNum, WeightRerankRunner.sortKey]
  · simp [WeightRerankRunner.calculate_keyword_score, WeightRerankRunner.annotateKeywords,
      WeightRerankRunner.tfidfVec, WeightRerankRunner.counterList, WeightRerankRunner.dedup,
      WeightRerankRunner.countOcc, WeightRerankRunner.idfOf,
      WeightRerankRunner.cosine_similarity, WeightRerankRunner.qGet]
    norm_num
  · simp [WeightRerankRunner.run, WeightRerankRunner.calculate_keyword_score,
      WeightRerankRunner.annotateKeywords, WeightRerankRunner.calculate_cosine,
      WeightRerankRunner.fuseLoop, WeightRerankRunner.sortDesc, WeightRerankRunner.insertDesc,
      WeightRerankRunner.truthyThreshold, WeightRerankRunner.truthyTopN,
      WeightRerankRunner.tfidfVec, WeightRerankRunner.counterList, WeightRerankRunner.dedup,
      WeightRerankRunner.countOcc, WeightRerankRunner.idfOf, WeightRerankRunner.cosine_similarity,
      WeightRerankRunner.qGet, WeightRerankRunner.npCosine, WeightRerankRunner.dotQ,
      WeightRerankRunner.normQ, metaSet, metaGet, MetaVal.asNum, WeightRerankRunner.sortKey]
    norm_num

/-- C10: every document `run` returns has non-None metadata containing a
numeric `"score"`; an input document whose metadata is `None` never appears
in the result, regardless of its scores, and is left untouched by the
keyword-annotation pass (so it receives no `"keywords"` entry). -/
theorem C10_metadata_none_omitted :
    ∀ (extract : String → List String) (lnQ sqrtQ : ℚ → ℚ) (embed : String → List ℚ)
      (weights : Weights) (query : String) (documents : List Document)
      (thr : Option ℚ) (topn : Option Nat),
      (∀ d ∈ WeightRerankRunner.run extract lnQ sqrtQ embed weights query documents thr topn,
        ∃ m : Metadata, d.metadata = some m ∧ ∃ q : ℚ, metaGet "score" m = some (.num q)) ∧
      (∀ d ∈ documents, d.metadata = none →
        d ∉ WeightRerankRunner.run extract lnQ sqrtQ embed weights query documents thr topn) ∧
      (∀ d ∈ documents, d.metadata = none →
        d ∈ (WeightRerankRunner.calculate_keyword_score extract lnQ sqrtQ query documents).1) := by
  intro extract lnQ sqrtQ embed weights query documents thr topn
  have hscore : ∀ d ∈ WeightRerankRunner.run extract lnQ sqrtQ embed weights query documents
      thr topn, ∃ m : Metadata, d.metadata = some m ∧
        ∃ q : ℚ, metaGet "score" m = some (.num q) := by
    intro d hd
    obtain ⟨i, h1, h2, h3, m, hm, hdq, _⟩ := fuseLoop_mem (mem_run hd)
    rw [hdq]
    exact ⟨_, rfl, _, metaGet_metaSet_self _ _ m⟩
  refine ⟨hscore, ?_, ?_⟩
  · intro d hd hnone hmem
    obtain ⟨m, hm, _⟩ := hscore d hmem
    rw [hnone] at hm
    exact Option.noConfusion hm
  · intro d hd hnone
    show d ∈ documents.map (WeightRerankRunner.annotateKeywords extract)
    refine List.mem_map.mpr ⟨d, hd, ?_⟩
    unfold WeightRerankRunner.annotateKeywords
    rw [hnone]

end Dify
